import Mathlib

/-!
Verification of the URL text-analysis pipeline (`app.py`).

The pipeline is: fetch → extract (`crawl_url_article`) → clean + segment +
count (`clean_and_segment`) → low-frequency filter (`filter_low_freq_words`)
→ ranked top-20 (`Counter.most_common(20)` in `main`).

Text is modelled as `List Char`.  The network fetch, the HTML parser and the
external jieba segmenter are collaborators outside the verified core: a
document is modelled by the per-tier element texts BeautifulSoup's
`find_all` calls would return (after `script`/`style`/`nav`/`footer`/
`aside`/`header` are pruned), and the segmenter output is an arbitrary
token sequence.
-/

/-- A token produced by the external segmentation capability. -/
abbrev Token := List Char

/-- Character codes matched by the whitespace class of Python regular
expressions over text strings, also the set stripped by `str.strip()`. -/
def pySpaceCodes : List Nat :=
  [9, 10, 11, 12, 13, 28, 29, 30, 31, 32, 133, 160, 0x1680,
   0x2000, 0x2001, 0x2002, 0x2003, 0x2004, 0x2005, 0x2006, 0x2007,
   0x2008, 0x2009, 0x200A, 0x2028, 0x2029, 0x202F, 0x205F, 0x3000]

/-- Whether a character is whitespace in Python's sense. -/
def isPySpace (c : Char) : Bool := decide (c.toNat ∈ pySpaceCodes)

/-- Python's `str.strip()`: remove whitespace from both ends. -/
def pyStrip (w : List Char) : List Char :=
  ((w.dropWhile isPySpace).reverse.dropWhile isPySpace).reverse

/-- Python's `"\n".join(l)` for a list of texts. -/
def joinNl : List (List Char) → List Char
  | [] => []
  | [t] => t
  | t :: u :: ts => t ++ '\n' :: joinNl (u :: ts)

/-- Python's truthiness-based `x or y` on lists: the first operand unless it
is empty. -/
def pyOr {α : Type} [DecidableEq α] (a b : List α) : List α :=
  if a = [] then b else a

/-- The element texts `crawl_url_article` can see in a fetched document,
one list per fallback tier: `find_all("article")`, the
`find_all("div", class_=...)` tier whose class contains "content" or
"article" case-insensitively, and `find_all("p")`.  Each entry is the
`get_text()` of one element, after non-content tags were decomposed. -/
structure Doc where
  articles : List (List Char)
  contentDivs : List (List Char)
  paragraphs : List (List Char)

/-- The error message of `crawl_url_article` when no text is produced. -/
def extractErrMsg : String := "未提取到正文（可能是动态页面/标签不匹配）"

/-- The text a tier produces:
`"\n".join([tag.get_text().strip() for tag in tags if tag.get_text().strip()])`. -/
def tierText (texts : List (List Char)) : List Char :=
  joinNl ((texts.map pyStrip).filter (fun s => decide (s ≠ [])))

/-- The extraction core of `crawl_url_article` (lines 57-62):
`content_tags = soup.find_all("article") or soup.find_all("div", ...) or
soup.find_all("p")`, join the non-empty stripped texts, and fail when the
joined text is empty. -/
def crawl_extract (d : Doc) : Except String (List Char) :=
  if tierText (pyOr d.articles (pyOr d.contentDivs d.paragraphs)) = [] then
    Except.error extractErrMsg
  else
    Except.ok (tierText (pyOr d.articles (pyOr d.contentDivs d.paragraphs)))

/-- State machine for Python's `re.sub(r"<[^>]+>", "", text)`.  `none` means
we are outside any candidate tag; `some buf` means a `<` was read and `buf`
holds the non-`>` characters seen since, in reverse.  A `>` after at least
one such character closes a match, which is dropped; `<>` and an
unterminated `<...` are not matches and are emitted verbatim. -/
def stripTagsAux : Option (List Char) → List Char → List Char
  | none, [] => []
  | none, c :: rest =>
    if c = '<' then stripTagsAux (some []) rest else c :: stripTagsAux none rest
  | some buf, [] => '<' :: buf.reverse
  | some buf, c :: rest =>
    if c = '>' then
      if buf = [] then '<' :: '>' :: stripTagsAux none rest
      else stripTagsAux none rest
    else stripTagsAux (some (c :: buf)) rest

/-- Cleaning step (a), line 69: `re.sub(r"<[^>]+>", "", text)`. -/
def stripTags (l : List Char) : List Char := stripTagsAux none l

/-- The character class of cleaning step (b), line 70:
`[0-9a-zA-Z\s+]` (digits, ASCII letters, whitespace, and a literal plus). -/
def removed2 (c : Char) : Bool :=
  (48 ≤ c.toNat && c.toNat ≤ 57) || (65 ≤ c.toNat && c.toNat ≤ 90) ||
    (97 ≤ c.toNat && c.toNat ≤ 122) || isPySpace c || c.toNat == 43

/-- The punctuation whitelist of cleaning step (c), line 71. -/
def punctWhitelist : List Char :=
  ['，', '。', '！', '？', '；', '：', '、', '（', '）', '【', '】']

/-- A character kept by cleaning step (c), line 71: the class
`[^一-龥，。！？；：、（）【】]` is removed, so a character survives
exactly when it is a CJK ideograph in that range or whitelisted punctuation. -/
def kept3 (c : Char) : Bool :=
  (0x4e00 ≤ c.toNat && c.toNat ≤ 0x9fa5) || decide (c ∈ punctWhitelist)

/-- Cleaning step (b), line 70. -/
def cleanStep2 (l : List Char) : List Char := l.filter (fun c => !removed2 c)

/-- Cleaning step (c), line 71. -/
def cleanStep3 (l : List Char) : List Char := l.filter kept3

/-- The cleaning chain of `clean_and_segment`, lines 69-71. -/
def clean (l : List Char) : List Char := cleanStep3 (cleanStep2 (stripTags l))

/-- The post-filter of `clean_and_segment`, line 75:
`[w for w in seg_list if w not in STOPWORDS and len(w) > 1 and w.strip()]`. -/
def seg_filter (stop : List Token) (seg : List Token) : List Token :=
  seg.filter (fun w =>
    decide (w ∉ stop) && decide (1 < w.length) && decide (pyStrip w ≠ []))

/-- Modelled from the spec: the post-filter as the claim words it, keeping
exactly the tokens that are not in the stopword set and have length > 1
(refinement comparison against `seg_filter`). -/
def seg_filter_claimed (stop : List Token) (seg : List Token) : List Token :=
  seg.filter (fun w => decide (w ∉ stop) && decide (1 < w.length))

/-- The keys of the insertion-ordered mapping Python builds while counting:
each distinct token once, in order of first occurrence. -/
def firstOccKeys : List Token → List Token
  | [] => []
  | w :: rest => w :: (firstOccKeys rest).filter (fun v => decide (v ≠ w))

/-- `collections.Counter(seg_list)`, line 78: a dict from token to
multiplicity whose iteration order is first-occurrence order (Python 3.7+
dict semantics), modelled as an association list. -/
def counter (seg : List Token) : List (Token × Nat) :=
  (firstOccKeys seg).map (fun w => (w, seg.count w))

/-- `filter_low_freq_words`, lines 81-83: the dict comprehension
`{word: count for word, count in word_count.items() if count >= min_freq}`
keeps the surviving items in their original relative order. -/
def filter_low_freq_words (wc : List (Token × Nat)) (min_freq : Nat) :
    List (Token × Nat) :=
  wc.filter (fun p => decide (min_freq ≤ p.2))

/-- Insert one item into a count-descending list, before the first entry
whose count is ≤ its own (so an earlier-listed item stays ahead of later
items with equal count). -/
def insertDesc (x : Token × Nat) : List (Token × Nat) → List (Token × Nat)
  | [] => [x]
  | y :: ys => if y.2 ≤ x.2 then x :: y :: ys else y :: insertDesc x ys

/-- Stable sort by count descending. -/
def sortDesc : List (Token × Nat) → List (Token × Nat)
  | [] => []
  | x :: xs => insertDesc x (sortDesc xs)

/-- `Counter.most_common(n)`, line 225: `heapq.nlargest` over the items is
documented as equivalent to a stable descending sort on the count followed
by `[:n]`, so items iterate in table order and ties keep that order. -/
def most_common (wc : List (Token × Nat)) (n : Nat) : List (Token × Nat) :=
  (sortDesc wc).take n

/-- The first index at which a token occurs in a token stream. -/
def firstIdx (seg : List Token) (w : Token) : Nat :=
  match seg with
  | [] => 0
  | v :: rest => if v = w then 0 else firstIdx rest w + 1

/-- The filter/rank stage of `main` applied to the frequency table built
from a token stream: lines 219 and 225. -/
def ranked (seg : List Token) (min_freq : Nat) : List (Token × Nat) :=
  most_common (filter_low_freq_words (counter seg) min_freq) 20

/-- The warning `main` shows when nothing survives the filter (line 221). -/
def emptyFilterMsg (min_freq : Nat) : String :=
  s!"⚠️ 过滤后无数据（最小词频设为{min_freq}，可降低阈值重试）"

/-- The result-display stage of `main`, lines 216-225: filter the stored
frequency table, warn and stop if nothing survives, otherwise rank the
top 20.  The stored table itself is not modified by this stage. -/
def run_filter_stage (wc : List (Token × Nat)) (min_freq : Nat) :
    Except String (List (Token × Nat)) :=
  if filter_low_freq_words wc min_freq = [] then
    Except.error (emptyFilterMsg min_freq)
  else
    Except.ok (most_common (filter_low_freq_words wc min_freq) 20)

/-- `clean_and_segment`, lines 66-79, parametrised by the external
segmentation capability (`jieba.lcut`) and the loaded stopword set. -/
def clean_and_segment (segmenter : List Char → List Token)
    (stop : List Token) (text : List Char) : List Token × List (Token × Nat) :=
  let seg_list := seg_filter stop (segmenter (clean text))
  (seg_list, counter seg_list)

/-- Ranking order demanded of the output: count strictly descending, with
ties broken by first occurrence in the originating token stream. -/
def countDescStable (seg : List Token) (a b : Token × Nat) : Prop :=
  b.2 < a.2 ∨ (a.2 = b.2 ∧ firstIdx seg a.1 < firstIdx seg b.1)

instance (seg : List Token) (a b : Token × Nat) :
    Decidable (countDescStable seg a b) := by
  unfold countDescStable
  infer_instance

/-- Sanity check: a markup tag, an ASCII letter and a digit are all cleaned
away while the ideograph survives. -/
theorem clean_sanity :
    clean ('<' :: 'b' :: '>' :: '中' :: '3' :: []) = ['中'] := by decide

/-- Sanity check: the worked example of the spec, stream [A, A, B, B, B, C]
at threshold 2, ranks to [(B, 3), (A, 2)]. -/
theorem ranked_sanity :
    ranked [['a'], ['a'], ['b'], ['b'], ['b'], ['c']] 2 =
      [(['b'], 3), (['a'], 2)] := by decide

/-! ### Cleaner lemmas (claims about `clean`) -/

theorem pySpace_le {c : Char} (h : isPySpace c = true) : c.toNat ≤ 0x3000 := by
  simp only [isPySpace, pySpaceCodes, decide_eq_true_eq, List.mem_cons,
    List.not_mem_nil, or_false] at h
  omega

theorem removed2_le {c : Char} (h : removed2 c = true) : c.toNat ≤ 0x3000 := by
  simp only [removed2, Bool.or_eq_true, Bool.and_eq_true, decide_eq_true_eq,
    beq_iff_eq] at h
  rcases h with ((((⟨a, b⟩ | ⟨a, b⟩) | ⟨a, b⟩) | hs) | hp)
  · omega
  · omega
  · omega
  · exact pySpace_le hs
  · omega

theorem kept3_spec {c : Char} (h : kept3 c = true) :
    removed2 c = false ∧ c ≠ '<' ∧ c ≠ '>' := by
  simp only [kept3, Bool.or_eq_true, Bool.and_eq_true, decide_eq_true_eq] at h
  rcases h with ⟨h1, _h2⟩ | hp
  · refine ⟨?_, ?_, ?_⟩
    · by_contra hr
      rw [Bool.not_eq_false] at hr
      have := removed2_le hr
      omega
    · intro he; subst he; exact absurd h1 (by decide)
    · intro he; subst he; exact absurd h1 (by decide)
  · fin_cases hp <;> decide

theorem stripTagsAux_none_of_not_mem {l : List Char} (h : '<' ∉ l) :
    stripTagsAux none l = l := by
  induction l with
  | nil => rfl
  | cons c rest ih =>
    simp only [List.mem_cons, not_or] at h
    have hc : ¬ c = '<' := fun he => h.1 he.symm
    simp [stripTagsAux, hc, ih h.2]

theorem clean_mem_kept3 {l : List Char} {c : Char} (h : c ∈ clean l) :
    kept3 c = true := by
  have h2 : c ∈ (cleanStep2 (stripTags l)).filter kept3 := h
  exact (List.mem_filter.mp h2).2

/-- C3: the Cleaner is idempotent: applying the three cleaning steps (tag
stripping, ASCII alphanumeric/whitespace removal, restriction to the target
script plus whitelisted punctuation) to their own output leaves it
unchanged. -/
theorem clean_idempotent (l : List Char) : clean (clean l) = clean l := by
  have hk : ∀ c ∈ clean l, kept3 c = true := fun c hc => clean_mem_kept3 hc
  have h1 : stripTags (clean l) = clean l :=
    stripTagsAux_none_of_not_mem (fun hmem => (kept3_spec (hk _ hmem)).2.1 rfl)
  have h2 : cleanStep2 (clean l) = clean l := by
    unfold cleanStep2
    apply List.filter_eq_self.mpr
    intro c hc
    simp [(kept3_spec (hk c hc)).1]
  have h3 : cleanStep3 (clean l) = clean l := by
    unfold cleanStep3
    exact List.filter_eq_self.mpr (fun c hc => hk c hc)
  calc clean (clean l) = cleanStep3 (cleanStep2 (stripTags (clean l))) := rfl
    _ = clean l := by rw [h1, h2, h3]

/-- C8: every character of the Cleaner's output is a target-script ideograph
or a character of the fixed punctuation whitelist; in particular no ASCII
alphanumeric (nor any other character matched by the removal class) and no
tag delimiter survives. -/
theorem clean_output_whitelist (l : List Char) (c : Char) (h : c ∈ clean l) :
    ((0x4e00 ≤ c.toNat ∧ c.toNat ≤ 0x9fa5) ∨ c ∈ punctWhitelist) ∧
      removed2 c = false ∧ c ≠ '<' ∧ c ≠ '>' := by
  have hk := clean_mem_kept3 h
  refine ⟨?_, kept3_spec hk⟩
  simpa only [kept3, Bool.or_eq_true, Bool.and_eq_true, decide_eq_true_eq]
    using hk

theorem clean_output_whitelist_witness :
    ((0x4e00 ≤ '中'.toNat ∧ '中'.toNat ≤ 0x9fa5) ∨ '中' ∈ punctWhitelist) ∧
      removed2 '中' = false ∧ '中' ≠ '<' ∧ '中' ≠ '>' :=
  clean_output_whitelist ['<', 'b', '>', '中', '3'] '中' (by decide)

/-! ### Extractor lemmas (claims about `crawl_extract`) -/

theorem joinNl_ne_nil :
    ∀ l : List (List Char), (∀ t ∈ l, t ≠ []) → l ≠ [] → joinNl l ≠ [] := by
  intro l
  match l with
  | [] => intro _ h; exact absurd rfl h
  | [t] => intro h _; simpa [joinNl] using h t (by simp)
  | t :: u :: ts => intro _ _; simp [joinNl]

theorem tierText_eq_nil_iff (texts : List (List Char)) :
    tierText texts = [] ↔ ∀ t ∈ texts, pyStrip t = [] := by
  unfold tierText
  constructor
  · intro h t ht
    by_contra hne
    have hmem : pyStrip t ∈ (texts.map pyStrip).filter (fun s => decide (s ≠ [])) := by
      rw [List.mem_filter]
      exact ⟨List.mem_map_of_mem _ ht, by simpa using hne⟩
    have hfil : (texts.map pyStrip).filter (fun s => decide (s ≠ [])) ≠ [] :=
      fun hh => by rw [hh] at hmem; exact absurd hmem (List.not_mem_nil _)
    exact absurd h
      (joinNl_ne_nil _ (fun s hs => by simpa using (List.mem_filter.mp hs).2) hfil)
  · intro h
    have hfil : (texts.map pyStrip).filter (fun s => decide (s ≠ [])) = [] := by
      rw [List.filter_eq_nil_iff]
      intro s hs
      obtain ⟨t, ht, rfl⟩ := List.mem_map.mp hs
      simpa using h t ht
    rw [hfil]
    rfl

/-- C2 counterexample: a document whose first tier has an element (so the
tier is selected) whose text strips to empty, while the paragraph tier
would produce non-empty text.  The code errors instead of falling through
to the next tier. -/
theorem crawl_extract_no_fallthrough_cex :
    crawl_extract ⟨[[]], [], [['中', '文']]⟩ = Except.error extractErrMsg ∧
      tierText [['中', '文']] = ['中', '文'] := by
  constructor
  · rfl
  · rfl

theorem crawl_extract_of_selected (d : Doc) (tier : List (List Char))
    (hsel : pyOr d.articles (pyOr d.contentDivs d.paragraphs) = tier) :
    (tierText tier ≠ [] → crawl_extract d = Except.ok (tierText tier)) ∧
      ((∀ t ∈ tier, pyStrip t = []) →
        crawl_extract d = Except.error extractErrMsg) := by
  unfold crawl_extract
  rw [hsel]
  constructor
  · intro h
    rw [if_neg h]
  · intro h
    rw [if_pos ((tierText_eq_nil_iff _).mpr h)]

/-- C2 amended: the extractor tries the three tiers in order and stops at
the first tier whose *element list* is non-empty, regardless of the text
those elements produce: with a non-empty article tier the result depends on
that tier alone; with an empty article tier but non-empty content-div tier
on that tier alone; otherwise on the paragraph tier.  Within the chosen
tier, non-empty joined text is returned as success, and if every element of
the chosen tier strips to empty text, extraction fails with the extraction
error instead of falling through to a later tier. -/
theorem crawl_extract_tier_chain (d : Doc) :
    (d.articles ≠ [] →
      crawl_extract d = crawl_extract (Doc.mk d.articles [] []) ∧
        (tierText d.articles ≠ [] →
          crawl_extract d = Except.ok (tierText d.articles)) ∧
        ((∀ t ∈ d.articles, pyStrip t = []) →
          crawl_extract d = Except.error extractErrMsg)) ∧
      (d.articles = [] → d.contentDivs ≠ [] →
        crawl_extract d = crawl_extract (Doc.mk [] d.contentDivs []) ∧
          (tierText d.contentDivs ≠ [] →
            crawl_extract d = Except.ok (tierText d.contentDivs)) ∧
          ((∀ t ∈ d.contentDivs, pyStrip t = []) →
            crawl_extract d = Except.error extractErrMsg)) ∧
      (d.articles = [] → d.contentDivs = [] →
        crawl_extract d = crawl_extract (Doc.mk [] [] d.paragraphs) ∧
          (tierText d.paragraphs ≠ [] →
            crawl_extract d = Except.ok (tierText d.paragraphs)) ∧
          ((∀ t ∈ d.paragraphs, pyStrip t = []) →
            crawl_extract d = Except.error extractErrMsg)) := by
  refine ⟨?_, ?_, ?_⟩
  · intro ha
    have hsel : pyOr d.articles (pyOr d.contentDivs d.paragraphs) = d.articles := by
      simp [pyOr, ha]
    have hsel2 : pyOr (Doc.mk d.articles [] []).articles
        (pyOr (Doc.mk d.articles [] []).contentDivs
          (Doc.mk d.articles [] []).paragraphs) = d.articles := by
      simp [pyOr, ha]
    refine ⟨?_, crawl_extract_of_selected d d.articles hsel⟩
    unfold crawl_extract
    rw [hsel, hsel2]
  · intro ha hb
    have hsel : pyOr d.articles (pyOr d.contentDivs d.paragraphs) =
        d.contentDivs := by
      simp [pyOr, ha, hb]
    have hsel2 : pyOr (Doc.mk [] d.contentDivs []).articles
        (pyOr (Doc.mk [] d.contentDivs []).contentDivs
          (Doc.mk [] d.contentDivs []).paragraphs) = d.contentDivs := by
      simp [pyOr, hb]
    refine ⟨?_, crawl_extract_of_selected d d.contentDivs hsel⟩
    unfold crawl_extract
    rw [hsel, hsel2]
  · intro ha hb
    have hsel : pyOr d.articles (pyOr d.contentDivs d.paragraphs) =
        d.paragraphs := by
      simp [pyOr, ha, hb]
    have hsel2 : pyOr (Doc.mk [] [] d.paragraphs).articles
        (pyOr (Doc.mk [] [] d.paragraphs).contentDivs
          (Doc.mk [] [] d.paragraphs).paragraphs) = d.paragraphs := by
      simp [pyOr]
    refine ⟨?_, crawl_extract_of_selected d d.paragraphs hsel⟩
    unfold crawl_extract
    rw [hsel, hsel2]

theorem crawl_extract_tier_chain_witness :
    crawl_extract ⟨[[]], [], [['中']]⟩ = Except.error extractErrMsg ∧
      crawl_extract ⟨[], [[]], [['中']]⟩ = Except.error extractErrMsg ∧
      crawl_extract ⟨[], [['文']], [['中']]⟩ = Except.ok (tierText [['文']]) ∧
      crawl_extract ⟨[], [], [['中']]⟩ = Except.ok (tierText [['中']]) :=
  ⟨((crawl_extract_tier_chain ⟨[[]], [], [['中']]⟩).1 (by decide)).2.2
      (by decide),
   ((crawl_extract_tier_chain ⟨[], [[]], [['中']]⟩).2.1 rfl (by decide)).2.2
      (by decide),
   ((crawl_extract_tier_chain ⟨[], [['文']], [['中']]⟩).2.1 rfl
      (by decide)).2.1 (by decide),
   ((crawl_extract_tier_chain ⟨[], [], [['中']]⟩).2.2 rfl rfl).2.1
      (by decide)⟩

/-- C9: the extractor never reports an empty string as a successful result,
and when every element of every tier strips to empty text it returns the
extraction error. -/
theorem crawl_extract_no_empty_success (d : Doc) :
    (∀ out, crawl_extract d = Except.ok out → out ≠ []) ∧
      ((∀ t ∈ d.articles ++ d.contentDivs ++ d.paragraphs, pyStrip t = []) →
        crawl_extract d = Except.error extractErrMsg) := by
  constructor
  · intro out hout
    unfold crawl_extract at hout
    by_cases hc : tierText (pyOr d.articles (pyOr d.contentDivs d.paragraphs)) = []
    · rw [if_pos hc] at hout
      exact absurd hout (by simp)
    · rw [if_neg hc] at hout
      have : tierText (pyOr d.articles (pyOr d.contentDivs d.paragraphs)) = out := by
        simpa using hout
      rw [← this]
      exact hc
  · intro hall
    unfold crawl_extract
    have hsub : ∀ t ∈ pyOr d.articles (pyOr d.contentDivs d.paragraphs),
        pyStrip t = [] := by
      intro t ht
      apply hall
      simp only [List.mem_append]
      unfold pyOr at ht
      by_cases ha : d.articles = []
      · by_cases hb : d.contentDivs = []
        · rw [if_pos ha, if_pos hb] at ht
          exact Or.inr ht
        · rw [if_pos ha, if_neg hb] at ht
          exact Or.inl (Or.inr ht)
      · rw [if_neg ha] at ht
        exact Or.inl (Or.inl ht)
    rw [if_pos ((tierText_eq_nil_iff _).mpr hsub)]

theorem crawl_extract_no_empty_success_witness :
    crawl_extract ⟨[], [], []⟩ = Except.error extractErrMsg ∧
      crawl_extract ⟨[], [], []⟩ ≠ Except.ok [] :=
  ⟨(crawl_extract_no_empty_success ⟨[], [], []⟩).2 (by simp),
   fun h => (crawl_extract_no_empty_success ⟨[], [], []⟩).1 [] h rfl⟩

/-! ### Tokenizer post-filter (claims about `seg_filter`) -/

/-- C5 counterexample: a segmentation output holding one token of two
whitespace characters, with an empty stopword set.  The token has length 2
and is not a stopword, so the claimed filter keeps it, but the code's
additional `word.strip()` test drops it. -/
theorem seg_filter_cex :
    seg_filter [] [[' ', ' ']] ≠ seg_filter_claimed [] [[' ', ' ']] := by
  decide

/-- C5 amended: the post-filter returns exactly the subsequence of tokens
that are not in the stopword set, have length > 1, and do not strip to the
empty string, preserving relative order; hence every output token has
length > 1 and is absent from the stopword set. -/
theorem seg_filter_amended (stop seg : List Token) :
    (seg_filter stop seg).Sublist seg ∧
      (∀ w, w ∈ seg_filter stop seg ↔
        w ∈ seg ∧ w ∉ stop ∧ 1 < w.length ∧ pyStrip w ≠ []) := by
  constructor
  · exact List.filter_sublist _
  · intro w
    simp [seg_filter, List.mem_filter, and_assoc]

theorem seg_filter_amended_witness :
    (seg_filter [['的']] [['中', '文'], ['的']]).Sublist [['中', '文'], ['的']] ∧
      (∀ w, w ∈ seg_filter [['的']] [['中', '文'], ['的']] ↔
        w ∈ [['中', '文'], ['的']] ∧ w ∉ [['的']] ∧ 1 < w.length ∧
          pyStrip w ≠ []) :=
  seg_filter_amended [['的']] [['中', '文'], ['的']]

/-! ### Aggregator (claims about `counter`) -/

theorem mem_firstOccKeys {w : Token} :
    ∀ {seg : List Token}, w ∈ firstOccKeys seg ↔ w ∈ seg := by
  intro seg
  induction seg with
  | nil => simp [firstOccKeys]
  | cons u rest ih =>
    by_cases h : w = u
    · subst h
      simp [firstOccKeys]
    · simp only [firstOccKeys, List.mem_cons, List.mem_filter,
        decide_eq_true_eq, ih]
      tauto

theorem nodup_firstOccKeys (seg : List Token) : (firstOccKeys seg).Nodup := by
  induction seg with
  | nil => simp [firstOccKeys]
  | cons u rest ih =>
    rw [firstOccKeys, List.nodup_cons]
    constructor
    · intro hmem
      have := (List.mem_filter.mp hmem).2
      simp at this
    · exact ih.filter _

theorem sum_map_filter_ne (rest : List Token) (w : Token) :
    ∀ keys : List Token, keys.Nodup →
      (keys.map (fun v => rest.count v)).sum =
        ((keys.filter (fun v => decide (v ≠ w))).map (fun v => rest.count v)).sum +
          (if w ∈ keys then rest.count w else 0) := by
  intro keys
  induction keys with
  | nil => simp
  | cons k ks ih =>
    intro hnd
    rw [List.nodup_cons] at hnd
    obtain ⟨hk, hks⟩ := hnd
    by_cases hkw : k = w
    · subst hkw
      have hfil : ks.filter (fun v => decide (v ≠ k)) = ks :=
        List.filter_eq_self.mpr (fun a ha => by
          simp only [decide_eq_true_eq]
          exact fun he => hk (he ▸ ha))
      have hfc : (k :: ks).filter (fun v => decide (v ≠ k)) = ks := by
        rw [List.filter_cons, if_neg (by simp)]
        exact hfil
      rw [hfc, if_pos (List.mem_cons_self k ks), List.map_cons, List.sum_cons]
      omega
    · rw [List.filter_cons, if_pos (by simpa using hkw), List.map_cons,
        List.sum_cons, List.map_cons, List.sum_cons, ih hks]
      by_cases hw : w ∈ ks
      · rw [if_pos hw, if_pos (List.mem_cons_of_mem _ hw)]
        omega
      · have hwk : w ∉ k :: ks := by
          intro hc
          rcases List.mem_cons.mp hc with he | h2
          · exact hkw he.symm
          · exact hw h2
        rw [if_neg hw, if_neg hwk]
        omega

theorem sum_counts (seg : List Token) :
    ((firstOccKeys seg).map (fun w => seg.count w)).sum = seg.length := by
  induction seg with
  | nil => simp [firstOccKeys]
  | cons u rest ih =>
    simp only [firstOccKeys, List.map_cons, List.sum_cons]
    have hmapeq :
        ((firstOccKeys rest).filter (fun v => decide (v ≠ u))).map
            (fun w => (u :: rest).count w) =
          ((firstOccKeys rest).filter (fun v => decide (v ≠ u))).map
            (fun w => rest.count w) := by
      apply List.map_congr_left
      intro v hv
      have hvne : v ≠ u := by simpa using (List.mem_filter.mp hv).2
      exact List.count_cons_of_ne hvne _
    have hsum := sum_map_filter_ne rest u (firstOccKeys rest)
      (nodup_firstOccKeys rest)
    rw [ih] at hsum
    rw [hmapeq, List.count_cons_self, List.length_cons]
    by_cases hu : u ∈ rest
    · rw [if_pos (mem_firstOccKeys.mpr hu)] at hsum
      omega
    · rw [if_neg (fun hh => hu (mem_firstOccKeys.mp hh))] at hsum
      have hcnt : rest.count u = 0 := List.count_eq_zero.mpr hu
      omega

/-- C4: the frequency table built by the Aggregator from a token stream has
counts summing to the stream's length, and its keys are exactly the
distinct tokens of the stream (each exactly once). -/
theorem counter_sum_and_keys (seg : List Token) :
    ((counter seg).map Prod.snd).sum = seg.length ∧
      ((counter seg).map Prod.fst).Nodup ∧
      (∀ w, w ∈ (counter seg).map Prod.fst ↔ w ∈ seg) := by
  have hkeys : (counter seg).map Prod.fst = firstOccKeys seg := by
    unfold counter
    rw [List.map_map]
    exact List.map_id _
  refine ⟨?_, ?_, ?_⟩
  · unfold counter
    rw [List.map_map]
    exact sum_counts seg
  · rw [hkeys]
    exact nodup_firstOccKeys seg
  · intro w
    rw [hkeys]
    exact mem_firstOccKeys

theorem counter_sum_and_keys_witness :
    ((counter [['a'], ['b'], ['a']]).map Prod.snd).sum =
        ([['a'], ['b'], ['a']] : List Token).length ∧
      ((counter [['a'], ['b'], ['a']]).map Prod.fst).Nodup ∧
      (∀ w, w ∈ (counter [['a'], ['b'], ['a']]).map Prod.fst ↔
        w ∈ ([['a'], ['b'], ['a']] : List Token)) :=
  counter_sum_and_keys [['a'], ['b'], ['a']]

/-! ### Low-frequency filter (claims about `filter_low_freq_words`) -/

/-- C6: filtering is antitone in the threshold, and an entry is retained at
threshold `m` exactly when it is in the table with count ≥ `m`. -/
theorem filter_low_freq_antitone (wc : List (Token × Nat)) (m1 m2 : Nat)
    (h : m1 < m2) :
    (∀ p, p ∈ filter_low_freq_words wc m2 → p ∈ filter_low_freq_words wc m1) ∧
      (∀ m p, p ∈ filter_low_freq_words wc m ↔ p ∈ wc ∧ m ≤ p.2) := by
  constructor
  · intro p hp
    simp only [filter_low_freq_words, List.mem_filter, decide_eq_true_eq]
      at hp ⊢
    exact ⟨hp.1, by omega⟩
  · intro m p
    simp [filter_low_freq_words, List.mem_filter]

theorem filter_low_freq_antitone_witness :
    2 < 4 ∧
      ((∀ p, p ∈ filter_low_freq_words [(['a'], 1), (['b'], 3)] 4 →
          p ∈ filter_low_freq_words [(['a'], 1), (['b'], 3)] 2) ∧
        (∀ m p, p ∈ filter_low_freq_words [(['a'], 1), (['b'], 3)] m ↔
          p ∈ [(['a'], 1), (['b'], 3)] ∧ m ≤ p.2)) :=
  ⟨by decide, filter_low_freq_antitone [(['a'], 1), (['b'], 3)] 2 4 (by decide)⟩

/-- C10: `filter_low_freq_words` builds its result as a subsequence of the
input table, and every retained token keeps exactly the count it had in the
input; the input itself appears unchanged on both sides (the embedding is
of a function that only reads `word_count.items()`). -/
theorem filter_low_freq_frame (wc : List (Token × Nat)) (m : Nat) :
    (filter_low_freq_words wc m).Sublist wc ∧
      (∀ w c, (w, c) ∈ filter_low_freq_words wc m → (w, c) ∈ wc) := by
  refine ⟨List.filter_sublist _, ?_⟩
  intro w c h
  exact (List.mem_filter.mp h).1

theorem filter_low_freq_frame_witness :
    (filter_low_freq_words [(['a'], 2)] 1).Sublist [(['a'], 2)] ∧
      (∀ w c, (w, c) ∈ filter_low_freq_words [(['a'], 2)] 1 →
        (w, c) ∈ [(['a'], 2)]) :=
  filter_low_freq_frame [(['a'], 2)] 1

/-! ### Ranking (claims about `most_common` / `ranked`) -/

theorem length_insertDesc (x : Token × Nat) :
    ∀ l, (insertDesc x l).length = l.length + 1 := by
  intro l
  induction l with
  | nil => rfl
  | cons y ys ih =>
    by_cases h : y.2 ≤ x.2
    · simp [insertDesc, h]
    · simp [insertDesc, h, ih]

theorem length_sortDesc :
    ∀ l : List (Token × Nat), (sortDesc l).length = l.length := by
  intro l
  induction l with
  | nil => rfl
  | cons x xs ih => simp [sortDesc, length_insertDesc, ih]

theorem mem_insertDesc {x z : Token × Nat} :
    ∀ {l : List (Token × Nat)}, z ∈ insertDesc x l ↔ z = x ∨ z ∈ l := by
  intro l
  induction l with
  | nil => simp [insertDesc]
  | cons y ys ih =>
    by_cases h : y.2 ≤ x.2
    · simp [insertDesc, h]
    · simp only [insertDesc, if_neg h, List.mem_cons, ih]
      tauto

theorem mem_sortDesc {z : Token × Nat} :
    ∀ {l : List (Token × Nat)}, z ∈ sortDesc l ↔ z ∈ l := by
  intro l
  induction l with
  | nil => simp [sortDesc]
  | cons x xs ih => simp [sortDesc, mem_insertDesc, ih]

theorem pairwise_insertDesc {seg : List Token} {x : Token × Nat} :
    ∀ l : List (Token × Nat), l.Pairwise (countDescStable seg) →
      (∀ y ∈ l, firstIdx seg x.1 < firstIdx seg y.1) →
      (insertDesc x l).Pairwise (countDescStable seg) := by
  intro l
  induction l with
  | nil =>
    intro _ _
    simp [insertDesc, countDescStable]
  | cons y ys ih =>
    intro hl hx
    rw [List.pairwise_cons] at hl
    obtain ⟨hy, hys⟩ := hl
    by_cases h : y.2 ≤ x.2
    · simp only [insertDesc]
      rw [if_pos h, List.pairwise_cons]
      refine ⟨?_, List.pairwise_cons.mpr ⟨hy, hys⟩⟩
      intro z hz
      rcases List.mem_cons.mp hz with he | hz2
      · have hxy := hx y (List.mem_cons_self _ _)
        subst he
        unfold countDescStable
        omega
      · have hyz := hy z hz2
        have hxz := hx z (List.mem_cons_of_mem _ hz2)
        unfold countDescStable at hyz ⊢
        omega
    · simp only [insertDesc]
      rw [if_neg h, List.pairwise_cons]
      constructor
      · intro z hz
        rcases mem_insertDesc.mp hz with he | hz2
        · subst he
          unfold countDescStable
          omega
        · exact hy z hz2
      · exact ih hys (fun z hz => hx z (List.mem_cons_of_mem _ hz))

theorem pairwise_sortDesc {seg : List Token} :
    ∀ l : List (Token × Nat),
      l.Pairwise (fun a b => firstIdx seg a.1 < firstIdx seg b.1) →
      (sortDesc l).Pairwise (countDescStable seg) := by
  intro l
  induction l with
  | nil =>
    intro _
    simp [sortDesc]
  | cons x xs ih =>
    intro hl
    rw [List.pairwise_cons] at hl
    obtain ⟨hx, hxs⟩ := hl
    exact pairwise_insertDesc (sortDesc xs) (ih hxs)
      (fun y hy => hx y (mem_sortDesc.mp hy))

theorem pairwise_firstIdx_firstOccKeys (seg : List Token) :
    (firstOccKeys seg).Pairwise (fun v w => firstIdx seg v < firstIdx seg w) := by
  induction seg with
  | nil => simp [firstOccKeys]
  | cons u rest ih =>
    rw [firstOccKeys, List.pairwise_cons]
    constructor
    · intro v hv
      have hvne : v ≠ u := by simpa using (List.mem_filter.mp hv).2
      have h0 : firstIdx (u :: rest) u = 0 := by simp [firstIdx]
      have h1 : firstIdx (u :: rest) v = firstIdx rest v + 1 := by
        simp only [firstIdx]
        rw [if_neg (fun he : u = v => hvne he.symm)]
      omega
    · have h2 := ih.filter (fun v => decide (v ≠ u))
      exact h2.imp_of_mem (fun {a b} ha hb hr => by
        have hane : a ≠ u := by simpa using (List.mem_filter.mp ha).2
        have hbne : b ≠ u := by simpa using (List.mem_filter.mp hb).2
        have ha1 : firstIdx (u :: rest) a = firstIdx rest a + 1 := by
          simp only [firstIdx]
          rw [if_neg (fun he : u = a => hane he.symm)]
        have hb1 : firstIdx (u :: rest) b = firstIdx rest b + 1 := by
          simp only [firstIdx]
          rw [if_neg (fun he : u = b => hbne he.symm)]
        omega)

theorem pairwise_counter (seg : List Token) :
    (counter seg).Pairwise (fun a b => firstIdx seg a.1 < firstIdx seg b.1) := by
  unfold counter
  rw [List.pairwise_map]
  exact pairwise_firstIdx_firstOccKeys seg

/-- C1: for every token stream and threshold in 1..20, the filter/rank
output is a list of (token, count) pairs ordered by count descending with
ties ordered by first occurrence in the stream, truncated to at most 20
entries. -/
theorem ranked_sorted_stable_top20 (seg : List Token) (min_freq : Nat)
    (h1 : 1 ≤ min_freq) (h2 : min_freq ≤ 20) :
    (ranked seg min_freq).length ≤ 20 ∧
      (ranked seg min_freq).Pairwise (countDescStable seg) := by
  constructor
  · unfold ranked most_common
    rw [List.length_take]
    omega
  · unfold ranked most_common
    have hp := pairwise_counter seg
    have hp2 := hp.filter (fun p => decide (min_freq ≤ p.2))
    have hp3 := pairwise_sortDesc _ hp2
    exact hp3.sublist (List.take_sublist _ _)

theorem ranked_sorted_stable_top20_witness :
    1 ≤ 2 ∧ (2 : Nat) ≤ 20 ∧
      ((ranked [['a'], ['a'], ['b'], ['b'], ['b'], ['c']] 2).length ≤ 20 ∧
        (ranked [['a'], ['a'], ['b'], ['b'], ['b'], ['c']] 2).Pairwise
          (countDescStable [['a'], ['a'], ['b'], ['b'], ['b'], ['c']])) :=
  ⟨by decide, by decide,
    ranked_sorted_stable_top20 [['a'], ['a'], ['b'], ['b'], ['b'], ['c']] 2
      (by decide) (by decide)⟩

/-! ### Empty-after-filter recovery (claim about `run_filter_stage`) -/

/-- C7: when the threshold exceeds every count of a non-empty frequency
table, the display stage reports the empty-after-filter warning instead of
failing, the table itself is untouched, and re-running only this stage on
the same table with a lower threshold succeeds with a non-empty ranking. -/
theorem run_filter_stage_empty_recoverable (wc : List (Token × Nat)) (m : Nat)
    (hne : wc ≠ []) (hpos : ∀ p ∈ wc, 1 ≤ p.2) (hm : ∀ p ∈ wc, p.2 < m) :
    run_filter_stage wc m = Except.error (emptyFilterMsg m) ∧
      filter_low_freq_words wc m = [] ∧
      ∃ m2 out, m2 < m ∧ run_filter_stage wc m2 = Except.ok out ∧ out ≠ [] := by
  have hempty : filter_low_freq_words wc m = [] := by
    unfold filter_low_freq_words
    rw [List.filter_eq_nil_iff]
    intro p hp
    simp only [decide_eq_true_eq]
    have := hm p hp
    omega
  have hfull : filter_low_freq_words wc 1 = wc := by
    unfold filter_low_freq_words
    apply List.filter_eq_self.mpr
    intro p hp
    simpa using hpos p hp
  obtain ⟨p, hp⟩ := List.exists_mem_of_ne_nil wc hne
  have h1m : 1 < m := by
    have hc1 := hpos p hp
    have hc2 := hm p hp
    omega
  have hout : most_common wc 20 ≠ [] := by
    unfold most_common
    intro hc
    have hlen := congrArg List.length hc
    rw [List.length_take, length_sortDesc] at hlen
    simp only [List.length_nil] at hlen
    have hz : wc.length = 0 := by omega
    exact hne (List.length_eq_zero.mp hz)
  refine ⟨?_, hempty, 1, most_common wc 20, h1m, ?_, hout⟩
  · unfold run_filter_stage
    rw [if_pos hempty]
  · unfold run_filter_stage
    rw [hfull, if_neg hne]

theorem run_filter_stage_witness :
    run_filter_stage [(['中', '国'], 2)] 3 = Except.error (emptyFilterMsg 3) ∧
      filter_low_freq_words [(['中', '国'], 2)] 3 = [] ∧
      ∃ m2 out, m2 < 3 ∧
        run_filter_stage [(['中', '国'], 2)] m2 = Except.ok out ∧ out ≠ [] :=
  run_filter_stage_empty_recoverable [(['中', '国'], 2)] 3 (by decide)
    (by decide) (by decide)
